import Mathlib

/-!
Shallow embedding of the event-table core of the EventsTool repository
(`src/main/python/Events.py`): the `Events` table model, the tabular-text
loader and saver, the SNIRF stimulus adapter, the sidecar inheritance
search, and the column query / onset sort operations.  Python dictionaries
are modelled as insertion-ordered association lists with in-place
overwrite; Python exceptions as `Except`; files as lists of parsed rows
(the `csv` / `json` standard-library codecs are the external boundary and
are modelled at the level of decoded field lists and decoded JSON
objects).
-/

namespace EventsTool

/-- JSON annotation object attached to a column (the value of one sidecar
entry).  Annotation values are modelled as strings; no verified property
inspects inside an annotation value, only whole-object equality. -/
abbrev Meta := List (String × String)

/-- A parsed metadata side-file: a JSON object mapping column names to
annotation objects. -/
abbrev Sidecar := List (String × Meta)

/-- A Python scalar as it can occur in a table cell: a string (tabular
loads), `None` (the `csv.DictReader` `restval` padding for short rows), a
number (SNIRF data; modelled as an integer since no claim depends on
float behaviour), or a list of strings (the `csv.DictReader` `restkey`
overflow for long rows). -/
inductive PyVal where
  | str (s : String)
  | vnone
  | num (n : Int)
  | vlist (xs : List String)
deriving DecidableEq

/-- A record key: `some name` for a named column, `none` for the
`csv.DictReader` rest key (Python `None`). -/
abbrev PyKey := Option String

/-- The Python exceptions the embedded operations can raise. -/
inductive PyErr where
  | keyError (k : PyKey)
  | valueError
  | typeError
  | osError
deriving DecidableEq

/-- Assignment `d[k] = v` on a Python dict modelled as an ordered
association list: an existing key keeps its position and gets the new
value, a new key is appended. -/
def pyDictInsert {K V : Type} [DecidableEq K] (d : List (K × V)) (k : K) (v : V) :
    List (K × V) :=
  if k ∈ d.map Prod.fst then d.map (fun p => if p.1 = k then (k, v) else p)
  else d ++ [(k, v)]

/-- Build a Python dict from a pair sequence by repeated assignment
(models `dict(zip(...))` and comprehension-style construction). -/
def pyDictOf {K V : Type} [DecidableEq K] (l : List (K × V)) : List (K × V) :=
  l.foldl (fun d p => pyDictInsert d p.1 p.2) []

/-- Dictionary lookup `d[k]` returning `none` when the key is absent. -/
def pyLookup {K V : Type} [DecidableEq K] (d : List (K × V)) (k : K) : Option V :=
  (d.find? (fun p => decide (p.1 = k))).map Prod.snd

/-- Left-to-right effectful map over `Except`, stopping at the first
error: the semantics of a Python loop or comprehension whose body can
raise. -/
def mapMExcept {α β ε : Type} (f : α → Except ε β) : List α → Except ε (List β)
  | [] => .ok []
  | a :: as =>
    match f a with
    | .error e => .error e
    | .ok b =>
      match mapMExcept f as with
      | .error e => .error e
      | .ok bs => .ok (b :: bs)

/-- `EventColumn`: a named column together with its sidecar annotation
object (`data`, default empty). -/
structure EventColumn where
  name : String
  data : Meta
deriving DecidableEq

/-- `Event`: one row, a Python dict from column key to cell value. -/
structure Event where
  data : List (PyKey × PyVal)
deriving DecidableEq

instance : Inhabited Event := ⟨⟨[]⟩⟩

deriving instance DecidableEq for Except

/-- `Events`: the table, an ordered column list plus an ordered row
list. -/
structure Events where
  columns : List EventColumn
  rows : List Event
deriving DecidableEq

/-- `Events.column_names` property. -/
def column_names (t : Events) : List String :=
  t.columns.map EventColumn.name

/-- `Events.column_descriptions` property: the dict built by
`s[col.name] = col.data` over the column list. -/
def column_descriptions (t : Events) : Sidecar :=
  pyDictOf (t.columns.map fun c => (c.name, c.data))

/-! ## Tabular-text loader and saver

A tabular file is modelled as its decoded rows: a list of field lists,
the first row being the header.  The `csv` module (delimiters, quoting,
the BOM-tolerant encoding) is the external codec boundary. -/

/-- One data row as produced by `csv.DictReader`: `dict(zip(fieldnames,
row))`, then the overflow fields under the rest key `None` when the row
is longer than the header, or padding of the missing field names with
`None` values when it is shorter. -/
def dictReaderRow (fns : List String) (row : List String) : List (PyKey × PyVal) :=
  let d := pyDictOf ((fns.zip row).map fun p => (some p.1, PyVal.str p.2))
  if fns.length < row.length then
    pyDictInsert d Option.none (PyVal.vlist (row.drop fns.length))
  else
    (fns.drop row.length).foldl (fun d k => pyDictInsert d (some k) PyVal.vnone) d

/-- The annotation object a freshly created column receives in
`_load_tsv`: the sidecar entry for its exact name when present, else
empty. -/
def sidecarMeta (sc : Option Sidecar) (key : String) : Meta :=
  match sc with
  | some s =>
    match pyLookup s key with
    | some m => m
    | none => []
  | none => []

/-- The shared column-discovery loop of both loaders: every name not
already present is appended as a fresh column built by `mk`. -/
def discoverColumns (mk : String → EventColumn) (cols : List EventColumn)
    (names : List String) : List EventColumn :=
  names.foldl
    (fun cs key =>
      if key ∈ cs.map EventColumn.name then cs
      else cs ++ [mk key])
    cols

/-- Column discovery of `_load_tsv`: one column per header name not
already present, in header order. -/
def tsvColumns (sc : Option Sidecar) (fns : List String) : List EventColumn :=
  discoverColumns (fun key => ⟨key, sidecarMeta sc key⟩) [] fns

/-- `Events._load_tsv` on a cleared table.  An empty file leaves
`DictReader.fieldnames` as Python `None` and the header iteration raises
`TypeError`; otherwise the first row is the header and every non-blank
later row becomes one record (`DictReader` skips blank rows). -/
def load_tsv (file : List (List String)) (sc : Option Sidecar) : Except PyErr Events :=
  match file with
  | [] => .error .typeError
  | header :: rest =>
    .ok
      { columns := tsvColumns sc header
        rows := (rest.filter fun r => !r.isEmpty).map fun r => ⟨dictReaderRow header r⟩ }

/-- Rendering of a cell by `csv.writer`: strings written as-is, `None`
as the empty field; the renderings of the other (never saved by any
verified property) values stand in for Python `str`. -/
def pyValToField : PyVal → String
  | .str s => s
  | .vnone => ""
  | .num n => toString n
  | .vlist xs => String.intercalate "," xs

/-- One row written by `csv.DictWriter.writerow`: a key outside the
field names raises `ValueError`, a missing key is written as the empty
field (`restval` rendered by the writer), otherwise fields are emitted
in header order. -/
def dictWriterRow (fns : List String) (d : List (PyKey × PyVal)) :
    Except PyErr (List String) :=
  if d.any fun p => decide (p.1 ∉ fns.map some) then .error .valueError
  else
    .ok (fns.map fun f =>
      match pyLookup d (some f) with
      | some v => pyValToField v
      | none => "")

/-- `Events.save` restricted to the tabular file: the header row followed
by every record in order. -/
def saveRows (t : Events) : Except PyErr (List (List String)) :=
  match mapMExcept (fun r => dictWriterRow (column_names t) r.data) t.rows with
  | .error e => .error e
  | .ok body => .ok (column_names t :: body)

/-- `Events.save` restricted to the sidecar file: `json.dump` of
`column_descriptions`. -/
def saveSidecar (t : Events) : Sidecar :=
  column_descriptions t

/-! ## Binary stimulus adapter (`Events._load_snirf`)

The SNIRF container is the external-library boundary: it is modelled by
what the adapter reads from it — for each stimulus stream its name, its
optional label list, its data array (rows of numbers) and the array's
column dimension `shape[1]` (stored in the container even when the array
has no rows; rows are rectangular of that width). -/

/-- One stimulus stream as read from the container. -/
structure Stim where
  name : String
  dataLabels : Option (List String)
  ncol : Nat
  data : List (List Int)

/-- Default annotation constants of the adapter. -/
def SNIRF_STIM_ONSET_DESCRIPTION : String :=
  "Time relative to the time origin when the stimulus takes on a value."

def SNIRF_STIM_DURATION_DESCRIPTION : String :=
  "The time in seconds that the stimulus value continues following the onset."

def SNIRF_STIM_AMPLITUDE_DESCRIPTION : String :=
  "Amplitude of the stimulus (from SNIRF)."

def SNIRF_STIM_NAME_DESCRIPTION : String :=
  "A string describing the stimulus condition (from SNIRF)."

/-- The label list a stream contributes: declared labels (default
`onset`, `duration`, `value` when absent) truncated to the column count,
padded with `column0`, `column1`, … for any shortfall, and the fixed
trailing `trial_type`. -/
def stimColumnNames (ncol : Nat) (dataLabels : Option (List String)) : List String :=
  let base :=
    match dataLabels with
    | some ls => ls
    | none => ["onset", "duration", "value"]
  let base := base.take ncol
  let base :=
    if base.length < ncol then
      base ++ (List.range (ncol - base.length)).map fun i => "column" ++ toString i
    else base
  base ++ ["trial_type"]

/-- The built-in default annotation set attached to a freshly created
column of the adapter. -/
def defaultMeta (key : String) : Meta :=
  if key = "onset" then [("Description", SNIRF_STIM_ONSET_DESCRIPTION), ("Units", "s")]
  else if key = "duration" then
    [("Description", SNIRF_STIM_DURATION_DESCRIPTION), ("Units", "s")]
  else if key = "value" then [("Description", SNIRF_STIM_AMPLITUDE_DESCRIPTION)]
  else if key = "trial_type" then [("trial_type", SNIRF_STIM_NAME_DESCRIPTION)]
  else []

/-- The annotation object a freshly created column receives in
`_load_snirf`: the built-in defaults, overridden by the sidecar entry of
the same key when one exists (the sidecar always wins). -/
def snirfMeta (sc : Option Sidecar) (key : String) : Meta :=
  match sc with
  | some s =>
    match pyLookup s key with
    | some m => m
    | none => defaultMeta key
  | none => defaultMeta key

/-- Column creation of the adapter: every label not already present is
appended with its `snirfMeta` annotations. -/
def addStimColumns (sc : Option Sidecar) (cols : List EventColumn) (names : List String) :
    List EventColumn :=
  discoverColumns (fun key => ⟨key, snirfMeta sc key⟩) cols names

/-- One record of a stream: positional labels mapped to the row's
values, then `trial_type` assigned the stream's name (overwriting any
same-named positional column). -/
def stimRecord (names : List String) (ncol : Nat) (row : List Int) (sname : String) :
    Event :=
  let d := (List.range ncol).foldl
    (fun d j => pyDictInsert d (some (names.getD j "")) (PyVal.num (row.getD j 0))) []
  ⟨pyDictInsert d (some "trial_type") (PyVal.str sname)⟩

/-- Processing of one stream: add its columns, append one record per
data row. -/
def loadSnirfStim (sc : Option Sidecar) (t : Events) (stim : Stim) : Events :=
  let names := stimColumnNames stim.ncol stim.dataLabels
  { columns := addStimColumns sc t.columns names
    rows := t.rows ++ stim.data.map fun row => stimRecord names stim.ncol row stim.name }

/-- `Events._load_snirf` on a cleared table: the streams of all `nirs`
groups in container-declared order, flattened into one list. -/
def load_snirf (sc : Option Sidecar) (stims : List Stim) : Events :=
  stims.foldl (loadSnirfStim sc) ⟨[], []⟩

/-! ## Sidecar inheritance search

The search in `Events.load` walks up to four ancestor directories of the
source file.  Each level is modelled by the outcome of `os.listdir` on
it: either an error (directory missing or unreadable) or its entries,
each entry a file name together with that file's parsed JSON content
(opening and parsing are only reached for a matching name). -/

/-- Candidate test of the search: name ends with the metadata suffix and
contains the task identifier as a substring. -/
def subListAt (pat l : List Char) : Bool :=
  decide (l.take pat.length = pat)

/-- Substring test on character lists (Python `in` on strings). -/
def containsSub (pat : List Char) : List Char → Bool
  | [] => pat.isEmpty
  | c :: cs => subListAt pat (c :: cs) || containsSub pat cs

/-- Python `sub in s` for strings. -/
def strContainsSub (s sub : String) : Bool :=
  containsSub sub.toList s.toList

/-- Python `s.endswith(t)`. -/
def strEndsWith (s t : String) : Bool :=
  decide (s.toList.drop (s.toList.length - t.toList.length) = t.toList)

/-- The match condition of the search loop. -/
def fileMatches (task file : String) : Bool :=
  strEndsWith file "_events.json" && strContainsSub file task

/-- A directory listing: entries with their parsed contents. -/
abbrev DirListing := List (String × Sidecar)

/-- The inner loop over one directory: the first matching entry is
opened, parsed and the loop breaks. -/
def scanDir (task : String) (files : DirListing) : Option Sidecar :=
  (files.find? fun p => fileMatches task p.1).map Prod.snd

/-- The search loop of `Events.load` for `sidecar == "search"`: up to
four ancestor levels, nearest first.  `os.listdir` failure raises out of
the loop; a level's match is stored into `sidecar_contents` and — the
inner `break` only leaves the file loop — the walk continues with the
next level. -/
def searchStep (task : String) (acc : Except PyErr (Option Sidecar))
    (lvl : Except PyErr DirListing) : Except PyErr (Option Sidecar) :=
  match acc with
  | .error e => .error e
  | .ok cur =>
    match lvl with
    | .error e => .error e
    | .ok files =>
      match scanDir task files with
      | some s => .ok (some s)
      | none => .ok cur

/-- The whole search: the four levels in nearest-to-farthest order. -/
def sidecarSearch (task : String) (levels : List (Except PyErr DirListing)) :
    Except PyErr (Option Sidecar) :=
  (levels.take 4).foldl (searchStep task) (.ok none)

/-- One level of the walk when its listing succeeded. -/
def searchPureStep (task : String) (acc : Option Sidecar) (files : DirListing) :
    Option Sidecar :=
  match scanDir task files with
  | some s => some s
  | none => acc

/-- The walk on listings that all succeed. -/
def searchPure (task : String) (dirs : List DirListing) : Option Sidecar :=
  dirs.foldl (searchPureStep task) none

/-! ## Column query and onset sort -/

/-- `Events.get_column`: the comprehension `[row[name] for row in rows]`,
raising `KeyError` at the first record lacking the name. -/
def get_column (t : Events) (name : String) : Except PyErr (List PyVal) :=
  mapMExcept
    (fun r =>
      match pyLookup r.data (some name) with
      | some v => .ok v
      | none => .error (.keyError (some name)))
    t.rows

/-- Three-way comparison on `Nat` (kernel-reducible). -/
def natCmp (a b : Nat) : Ordering :=
  if a < b then .lt else if b < a then .gt else .eq

/-- Three-way comparison on `Int` (kernel-reducible). -/
def intCmp (a b : Int) : Ordering :=
  if a < b then .lt else if b < a then .gt else .eq

/-- Code-point comparison of characters, as numpy compares string
elements. -/
def charCmp (a b : Char) : Ordering :=
  natCmp a.toNat b.toNat

/-- Lexicographic comparison of character lists. -/
def lexCmp : List Char → List Char → Ordering
  | [], [] => .eq
  | [], _ :: _ => .lt
  | _ :: _, [] => .gt
  | a :: as, b :: bs =>
    match charCmp a b with
    | .eq => lexCmp as bs
    | o => o

/-- Sort key of a cell under the modelled `np.argsort` comparison: tag,
numeric part, textual part.  Numbers sort numerically among themselves
and strings lexicographically by code point, the two cases the program
produces (binary loads give numeric onsets, tabular loads strings); the
cross-tag order is a modelling artifact of the comparison being total. -/
def valKey : PyVal → Nat × Int × List Char
  | .num n => (0, n, [])
  | .str s => (1, 0, s.toList)
  | .vnone => (2, 0, [])
  | .vlist _ => (3, 0, [])

/-- Lexicographic three-way comparison of sort keys. -/
def tripleCmp (x y : Nat × Int × List Char) : Ordering :=
  match natCmp x.1 y.1 with
  | .eq =>
    match intCmp x.2.1 y.2.1 with
    | .eq => lexCmp x.2.2 y.2.2
    | o => o
  | o => o

/-- Comparison of two cells. -/
def valCmp (a b : PyVal) : Ordering :=
  tripleCmp (valKey a) (valKey b)

/-- Order on (index, cell) pairs: by cell, ties by original index.
numpy's default argsort kind (quicksort/introsort) fixes no order for
equal cells, so the index tie-break here is only the deterministic
choice that makes the modelled comparison total: it coincides with what
numpy computes on inputs with pairwise distinct cells (where every
conforming sort agrees) and on small arrays (where introsort
degenerates to its stable insertion sort); no universally quantified
theorem relies on the tie order, only on sortedness and permutation,
which hold for every conforming implementation. -/
def pairR (p q : Nat × PyVal) : Prop :=
  (match valCmp p.2 q.2 with
    | .lt => true
    | .eq => decide (p.1 ≤ q.1)
    | .gt => false) = true

instance : DecidableRel pairR := fun p q => by
  unfold pairR
  infer_instance

/-- `np.argsort(xs).astype(int)` as the list of original indices in
sorted order: one conforming implementation of the sort numpy performs,
exact up to the order of equal cells (which numpy's default kind leaves
unspecified), and exact outright on distinct cells and on the small
arrays numpy insertion-sorts. -/
def sortIdx (xs : List PyVal) : List Nat :=
  (List.insertionSort pairR xs.enum).map Prod.fst

/-- `Events.sort_events`.  The `except KeyError(self):` clause names an
exception instance, not a class, so when `get_column` raises `KeyError`
the matching itself raises `TypeError`: any failure of the column read
escapes the method.  On success the rows are reordered by the argsort of
the onset column. -/
def sort_events (t : Events) : Except PyErr Events :=
  match get_column t "onset" with
  | .error _ => .error .typeError
  | .ok onsets =>
    .ok { t with rows := (sortIdx onsets).map fun i => t.rows.getD i default }

/-! ## Predicates used by the verified properties -/

/-- A well-formed tabular file: a non-empty header with pairwise distinct
names, and every data row with exactly as many fields as the header. -/
def WellFormedTsv (file : List (List String)) : Prop :=
  match file with
  | [] => False
  | header :: rest => header ≠ [] ∧ header.Nodup ∧ ∀ r ∈ rest, r.length = header.length

instance : DecidablePred WellFormedTsv := fun file => by
  unfold WellFormedTsv
  cases file <;> infer_instance

/-- The column-superset invariant: every key of every record names a
column of the table. -/
def keySubset (t : Events) : Prop :=
  ∀ e ∈ t.rows, ∀ k ∈ e.data.map Prod.fst, ∃ c ∈ t.columns, k = some c.name

instance : DecidablePred keySubset := fun t => by
  unfold keySubset
  infer_instance

/-- Decimal reading of a digit list. -/
def digitsToNat : List Char → Nat → Nat
  | [], acc => acc
  | c :: cs, acc => digitsToNat cs (acc * 10 + (c.toNat - 48))

/-- The numeric reading of a cell used to state the spec's claim that
onsets sort by numeric value: digit strings are read as numbers. -/
def numericVal : PyVal → Int
  | .str s => (digitsToNat s.toList 0 : Nat)
  | .num n => n
  | _ => 0

/-- Whether the onset column of a table is in ascending numeric order. -/
def numericOnsetsAscending (t : Events) : Bool :=
  decide (List.Pairwise (fun a b => a ≤ b)
    (t.rows.map fun e => numericVal ((pyLookup e.data (some "onset")).getD PyVal.vnone)))

/-- The onset cells of a table in row order. -/
def onsetsOf (t : Events) : List PyVal :=
  t.rows.map fun e => (pyLookup e.data (some "onset")).getD PyVal.vnone

/-! ## Lemmas: dictionary model -/

theorem pyDictInsert_of_not_mem {K V : Type} [DecidableEq K] {d : List (K × V)} {k : K}
    (v : V) (h : k ∉ d.map Prod.fst) : pyDictInsert d k v = d ++ [(k, v)] := by
  simp [pyDictInsert, h]

theorem foldl_pyDictInsert_nodup {K V : Type} [DecidableEq K] :
    ∀ (l acc : List (K × V)), (((acc ++ l).map Prod.fst).Nodup) →
      l.foldl (fun d p => pyDictInsert d p.1 p.2) acc = acc ++ l := by
  intro l
  induction l with
  | nil => intro acc _; simp
  | cons p l ih =>
    intro acc h
    have hk : p.1 ∉ acc.map Prod.fst := by
      rw [List.map_append, List.nodup_append] at h
      exact fun hmem => h.2.2 hmem (by simp)
    have hstep : pyDictInsert acc p.1 p.2 = acc ++ [p] := by
      rw [pyDictInsert_of_not_mem p.2 hk]
    have h' : (((acc ++ [p]) ++ l).map Prod.fst).Nodup := by
      simpa [List.append_assoc] using h
    calc (p :: l).foldl (fun d q => pyDictInsert d q.1 q.2) acc
        = l.foldl (fun d q => pyDictInsert d q.1 q.2) (acc ++ [p]) := by
          simp [List.foldl_cons, hstep]
      _ = (acc ++ [p]) ++ l := ih (acc ++ [p]) h'
      _ = acc ++ p :: l := by simp

theorem pyDictOf_nodup {K V : Type} [DecidableEq K] {l : List (K × V)}
    (h : (l.map Prod.fst).Nodup) : pyDictOf l = l := by
  simpa using foldl_pyDictInsert_nodup l [] (by simpa using h)

theorem pyLookup_cons {K V : Type} [DecidableEq K] (p : K × V) (d : List (K × V)) (k : K) :
    pyLookup (p :: d) k = if p.1 = k then some p.2 else pyLookup d k := by
  by_cases h : p.1 = k <;> simp [pyLookup, List.find?_cons, h]

theorem pyLookup_map_self {V : Type} (g : String → V) :
    ∀ (l : List String) (k : String), k ∈ l →
      pyLookup (l.map fun x => (x, g x)) k = some (g k) := by
  intro l
  induction l with
  | nil => intro k h; cases h
  | cons a l ih =>
    intro k h
    by_cases hak : a = k
    · subst hak; simp [pyLookup_cons]
    · have : k ∈ l := by
        rcases List.mem_cons.mp h with h1 | h1
        · exact absurd h1.symm hak
        · exact h1
      simp [pyLookup_cons, hak, ih k this]

theorem map_fst_pyDictInsert_subset {K V : Type} [DecidableEq K]
    (d : List (K × V)) (k : K) (v : V) :
    ∀ x ∈ (pyDictInsert d k v).map Prod.fst, x ∈ d.map Prod.fst ∨ x = k := by
  intro x hx
  unfold pyDictInsert at hx
  split at hx
  · rw [List.map_map] at hx
    rcases List.mem_map.mp hx with ⟨p, hp, hpx⟩
    by_cases hpk : p.1 = k
    · right; simpa [hpk] using hpx.symm
    · left; simp only [Function.comp, hpk, if_neg] at hpx
      exact hpx ▸ List.mem_map_of_mem Prod.fst hp
  · rw [List.map_append] at hx
    rcases List.mem_append.mp hx with h1 | h1
    · exact Or.inl h1
    · right; simpa using h1

theorem map_fst_foldl_pyDictInsert_subset {K V : Type} [DecidableEq K] :
    ∀ (l acc : List (K × V)) (x : K),
      x ∈ (l.foldl (fun d p => pyDictInsert d p.1 p.2) acc).map Prod.fst →
      x ∈ acc.map Prod.fst ∨ x ∈ l.map Prod.fst := by
  intro l
  induction l with
  | nil => intro acc x hx; exact Or.inl (by simpa using hx)
  | cons p l ih =>
    intro acc x hx
    rcases ih (pyDictInsert acc p.1 p.2) x (by simpa using hx) with h1 | h1
    · rcases map_fst_pyDictInsert_subset acc p.1 p.2 x h1 with h2 | h2
      · exact Or.inl h2
      · exact Or.inr (by simp [h2])
    · exact Or.inr (by simp [h1])

theorem map_fst_pyDictOf_subset {K V : Type} [DecidableEq K] (l : List (K × V)) (x : K) :
    x ∈ (pyDictOf l).map Prod.fst → x ∈ l.map Prod.fst := by
  intro hx
  rcases map_fst_foldl_pyDictInsert_subset l [] x hx with h | h
  · simp at h
  · exact h

/-! ## Lemmas: effectful map -/

theorem mapMExcept_ok {α β ε : Type} (f : α → Except ε β) (g : α → β) :
    ∀ l : List α, (∀ a ∈ l, f a = .ok (g a)) → mapMExcept f l = .ok (l.map g) := by
  intro l
  induction l with
  | nil => intro _; rfl
  | cons a l ih =>
    intro h
    have ha : f a = .ok (g a) := h a (by simp)
    have hl : mapMExcept f l = .ok (l.map g) := ih fun b hb => h b (by simp [hb])
    simp [mapMExcept, ha, hl]

theorem mapMExcept_length {α β ε : Type} (f : α → Except ε β) :
    ∀ (l : List α) (bs : List β), mapMExcept f l = .ok bs → bs.length = l.length := by
  intro l
  induction l with
  | nil => intro bs h; simp [mapMExcept] at h; simp [← h]
  | cons a l ih =>
    intro bs h
    unfold mapMExcept at h
    cases hfa : f a with
    | error e => simp [hfa] at h
    | ok b =>
      simp only [hfa] at h
      cases hres : mapMExcept f l with
      | error e => simp [hres] at h
      | ok bs' =>
        simp only [hres] at h
        cases h
        simp [ih bs' hres]

theorem mapMExcept_get {α β ε : Type} (f : α → Except ε β) (da : α) (db : β) :
    ∀ (l : List α) (bs : List β), mapMExcept f l = .ok bs →
      ∀ i : Nat, i < l.length → f (l.getD i da) = .ok (bs.getD i db) := by
  intro l
  induction l with
  | nil => intro bs _ i hi; cases hi
  | cons a as ih =>
    intro bs h i hi
    unfold mapMExcept at h
    cases hfa : f a with
    | error e => rw [hfa] at h; cases h
    | ok b =>
      rw [hfa] at h
      cases hres : mapMExcept f as with
      | error e => rw [hres] at h; cases h
      | ok bs' =>
        rw [hres] at h
        cases h
        cases i with
        | zero => exact hfa
        | succ j => exact ih bs' hres j (by simpa using hi)

theorem mapMExcept_isError {α β ε : Type} (f : α → Except ε β) :
    ∀ (l : List α) (a : α), a ∈ l → (∃ e, f a = .error e) →
      ∃ e, mapMExcept f l = .error e := by
  intro l
  induction l with
  | nil => intro a h; cases h
  | cons b l ih =>
    intro a ha ⟨e, he⟩
    unfold mapMExcept
    cases hfb : f b with
    | error e' => exact ⟨e', rfl⟩
    | ok v =>
      have hal : a ∈ l := by
        rcases List.mem_cons.mp ha with h1 | h1
        · subst h1; rw [hfb] at he; cases he
        · exact h1
      rcases ih a hal ⟨e, he⟩ with ⟨e', he'⟩
      exact ⟨e', by simp [hfb, he']⟩

/-! ## Lemmas: column discovery -/

theorem discoverColumns_append (mk : String → EventColumn) :
    ∀ (names : List String) (cols : List EventColumn),
      ∃ add, discoverColumns mk cols names = cols ++ add := by
  intro names
  induction names with
  | nil => intro cols; exact ⟨[], by simp [discoverColumns]⟩
  | cons k names ih =>
    intro cols
    unfold discoverColumns
    simp only [List.foldl_cons]
    by_cases hk : k ∈ cols.map EventColumn.name
    · rcases ih cols with ⟨add, hadd⟩
      exact ⟨add, by simpa [discoverColumns, hk] using hadd⟩
    · rcases ih (cols ++ [mk k]) with ⟨add, hadd⟩
      exact ⟨[mk k] ++ add, by simpa [discoverColumns, hk, List.append_assoc] using hadd⟩

theorem mem_discoverColumns_of_mem (mk : String → EventColumn) :
    ∀ (names : List String) (cols : List EventColumn) (c : EventColumn),
      c ∈ cols → c ∈ discoverColumns mk cols names := by
  intro names cols c hc
  rcases discoverColumns_append mk names cols with ⟨add, hadd⟩
  rw [hadd]
  exact List.mem_append_left add hc

theorem names_mem_discoverColumns (mk : String → EventColumn)
    (hmk : ∀ k, (mk k).name = k) :
    ∀ (names : List String) (cols : List EventColumn) (k : String),
      (k ∈ names ∨ k ∈ cols.map EventColumn.name) →
      k ∈ (discoverColumns mk cols names).map EventColumn.name := by
  intro names
  induction names with
  | nil =>
    intro cols k h
    rcases h with h | h
    · cases h
    · simpa [discoverColumns] using h
  | cons a names ih =>
    intro cols k h
    unfold discoverColumns
    simp only [List.foldl_cons]
    by_cases ha : a ∈ cols.map EventColumn.name
    · simp only [ha, if_pos]
      apply ih cols k
      rcases h with h | h
      · rcases List.mem_cons.mp h with h1 | h1
        · exact Or.inr (h1 ▸ ha)
        · exact Or.inl h1
      · exact Or.inr h
    · simp only [ha, if_neg, not_false_iff]
      apply ih (cols ++ [mk a]) k
      rcases h with h | h
      · rcases List.mem_cons.mp h with h1 | h1
        · exact Or.inr (by simp [h1, hmk a])
        · exact Or.inl h1
      · exact Or.inr (by simp [h])

theorem discoverColumns_nodup_names (mk : String → EventColumn)
    (hmk : ∀ k, (mk k).name = k) :
    ∀ (names : List String) (cols : List EventColumn),
      (cols.map EventColumn.name).Nodup →
      ((discoverColumns mk cols names).map EventColumn.name).Nodup := by
  intro names
  induction names with
  | nil => intro cols h; simpa [discoverColumns] using h
  | cons a names ih =>
    intro cols h
    unfold discoverColumns
    simp only [List.foldl_cons]
    by_cases ha : a ∈ cols.map EventColumn.name
    · simpa [discoverColumns, ha] using ih cols h
    · have h' : ((cols ++ [mk a]).map EventColumn.name).Nodup := by
        simp only [List.map_append, List.map_cons, List.map_nil]
        rw [List.nodup_append]
        exact ⟨h, List.nodup_singleton _, by
          intro x hx hx1
          rcases List.mem_singleton.mp hx1 with h2
          exact ha (by rwa [h2, hmk a] at hx)⟩
      simpa [discoverColumns, ha] using ih (cols ++ [mk a]) h'

theorem discoverColumns_all {P : EventColumn → Prop} (mk : String → EventColumn)
    (hmk : ∀ k, P (mk k)) :
    ∀ (names : List String) (cols : List EventColumn),
      (∀ c ∈ cols, P c) → ∀ c ∈ discoverColumns mk cols names, P c := by
  intro names
  induction names with
  | nil => intro cols h c hc; exact h c (by simpa [discoverColumns] using hc)
  | cons a names ih =>
    intro cols h c hc
    unfold discoverColumns at hc
    simp only [List.foldl_cons] at hc
    by_cases ha : a ∈ cols.map EventColumn.name
    · simp only [ha, if_pos] at hc
      exact ih cols h c hc
    · simp only [ha, if_neg, not_false_iff] at hc
      refine ih (cols ++ [mk a]) ?_ c hc
      intro d hd
      rcases List.mem_append.mp hd with h1 | h1
      · exact h d h1
      · rw [List.mem_singleton.mp h1]; exact hmk a

theorem discoverColumns_fresh (mk : String → EventColumn)
    (hmk : ∀ k, (mk k).name = k) :
    ∀ (names : List String) (cols : List EventColumn), names.Nodup →
      (∀ k ∈ names, k ∉ cols.map EventColumn.name) →
      discoverColumns mk cols names = cols ++ names.map mk := by
  intro names
  induction names with
  | nil => intro cols _ _; simp [discoverColumns]
  | cons a names ih =>
    intro cols hnd hfresh
    have ha : a ∉ cols.map EventColumn.name := hfresh a (by simp)
    unfold discoverColumns
    simp only [List.foldl_cons, ha, if_neg, not_false_iff]
    have hrec := ih (cols ++ [mk a]) (List.Nodup.of_cons hnd) (by
      intro k hk
      simp only [List.map_append, List.map_cons, List.map_nil, List.mem_append]
      rintro (h1 | h1)
      · exact hfresh k (by simp [hk]) h1
      · rcases List.mem_singleton.mp h1 with h2
        rw [hmk a] at h2
        rcases List.nodup_cons.mp hnd with ⟨hna, _⟩
        exact hna (h2 ▸ hk))
    calc names.foldl _ (cols ++ [mk a]) = (cols ++ [mk a]) ++ names.map mk := hrec
      _ = cols ++ (a :: names).map mk := by simp

/-! ## Lemmas: tabular reader and writer -/

theorem dictReaderRow_exact {fns row : List String} (hnd : fns.Nodup)
    (hlen : row.length = fns.length) :
    dictReaderRow fns row = (fns.zip row).map fun p => (some p.1, PyVal.str p.2) := by
  unfold dictReaderRow
  have hfst : ((fns.zip row).map fun p => (some p.1, PyVal.str p.2)).map Prod.fst
      = fns.map some := by
    rw [List.map_map]
    have : (Prod.fst ∘ fun p : String × String => ((some p.1 : PyKey), PyVal.str p.2))
        = (fun x : String => (some x : PyKey)) ∘ Prod.fst := rfl
    rw [this, ← List.map_map, List.map_fst_zip fns row (le_of_eq hlen.symm)]
  have hnodup : (((fns.zip row).map fun p => (some p.1, PyVal.str p.2)).map Prod.fst).Nodup := by
    rw [hfst]
    exact hnd.map (Option.some_injective String)
  have hd : pyDictOf ((fns.zip row).map fun p => (some p.1, PyVal.str p.2))
      = (fns.zip row).map fun p => (some p.1, PyVal.str p.2) := pyDictOf_nodup hnodup
  rw [hd]
  have hnlt : ¬ fns.length < row.length := by omega
  rw [if_neg hnlt, List.drop_eq_nil_of_le (le_of_eq hlen.symm)]
  rfl

theorem map_pyLookup_zip {fns row : List String} (hnd : fns.Nodup)
    (hlen : row.length = fns.length) :
    (fns.map fun f =>
      match pyLookup ((fns.zip row).map fun p => (some p.1, PyVal.str p.2)) (some f) with
      | some v => pyValToField v
      | none => "") = row := by
  induction fns generalizing row with
  | nil => cases row with
    | nil => rfl
    | cons v row => simp at hlen
  | cons f fns ih =>
    cases row with
    | nil => simp at hlen
    | cons v row =>
      rcases List.nodup_cons.mp hnd with ⟨hf, hnd'⟩
      have hlen' : row.length = fns.length := by simpa using hlen
      simp only [List.zip_cons_cons, List.map_cons]
      congr 1
      · rw [pyLookup_cons]; simp [pyValToField]
      · have hstep : ∀ g ∈ fns,
            pyLookup (((some f : PyKey), PyVal.str v) ::
                (fns.zip row).map fun p => (some p.1, PyVal.str p.2)) (some g)
            = pyLookup ((fns.zip row).map fun p => (some p.1, PyVal.str p.2)) (some g) := by
          intro g hg
          rw [pyLookup_cons]
          have : f ≠ g := fun h => hf (h ▸ hg)
          simp [this]
        calc (fns.map fun g =>
              match pyLookup (((some f : PyKey), PyVal.str v) ::
                  (fns.zip row).map fun p => (some p.1, PyVal.str p.2)) (some g) with
              | some w => pyValToField w
              | none => "")
            = fns.map fun g =>
              match pyLookup ((fns.zip row).map fun p => (some p.1, PyVal.str p.2)) (some g) with
              | some w => pyValToField w
              | none => "" := by
              apply List.map_congr_left
              intro g hg
              rw [hstep g hg]
          _ = row := ih hnd' hlen'

theorem zipRecord_keys {fns row : List String} (hlen : row.length = fns.length) :
    ((fns.zip row).map fun p => ((some p.1 : PyKey), PyVal.str p.2)).map Prod.fst
      = fns.map some := by
  rw [List.map_map]
  have : (Prod.fst ∘ fun p : String × String => ((some p.1 : PyKey), PyVal.str p.2))
      = (fun x : String => (some x : PyKey)) ∘ Prod.fst := rfl
  rw [this, ← List.map_map, List.map_fst_zip fns row (le_of_eq hlen.symm)]

theorem dictWriterRow_zip {fns row : List String} (hnd : fns.Nodup)
    (hlen : row.length = fns.length) :
    dictWriterRow fns ((fns.zip row).map fun p => (some p.1, PyVal.str p.2)) = .ok row := by
  unfold dictWriterRow
  have hany : ((fns.zip row).map fun p => ((some p.1 : PyKey), PyVal.str p.2)).any
      (fun p => decide (p.1 ∉ fns.map some)) = false := by
    rw [List.any_eq_false]
    intro p hp
    have hkey : p.1 ∈ fns.map some := by
      rw [← zipRecord_keys hlen]
      exact List.mem_map_of_mem Prod.fst hp
    simp [hkey]
  rw [hany]
  simp only [Bool.false_eq_true, if_neg, not_false_iff]
  exact congrArg Except.ok (map_pyLookup_zip hnd hlen)

/-! ## Lemmas: load and save of a well-formed tabular file -/

theorem mapMExcept_map {α γ β ε : Type} (f : γ → Except ε β) (h : α → γ) :
    ∀ l : List α, mapMExcept f (l.map h) = mapMExcept (fun a => f (h a)) l := by
  intro l
  induction l with
  | nil => rfl
  | cons a l ih => simp [mapMExcept, ih]

theorem tsvColumns_nodup (sc : Option Sidecar) {header : List String} (hnd : header.Nodup) :
    tsvColumns sc header = header.map fun k => ⟨k, sidecarMeta sc k⟩ := by
  unfold tsvColumns
  rw [discoverColumns_fresh _ (fun _ => rfl) header [] hnd (by simp)]
  simp

theorem load_tsv_wellFormed {header : List String} {rest : List (List String)}
    (hh : header ≠ []) (hnd : header.Nodup)
    (hlen : ∀ r ∈ rest, r.length = header.length) (sc : Option Sidecar) :
    load_tsv (header :: rest) sc = .ok
      { columns := header.map fun k => ⟨k, sidecarMeta sc k⟩
        rows := rest.map fun r => ⟨(header.zip r).map fun p => (some p.1, PyVal.str p.2)⟩ } := by
  have hred : load_tsv (header :: rest) sc = .ok
      { columns := tsvColumns sc header
        rows := (rest.filter fun r => !r.isEmpty).map fun r => ⟨dictReaderRow header r⟩ } := rfl
  rw [hred, tsvColumns_nodup sc hnd]
  have hfilter : rest.filter (fun r => !r.isEmpty) = rest := by
    rw [List.filter_eq_self]
    intro r hr
    have hlr : r.length = header.length := hlen r hr
    have hpos : 0 < header.length := List.length_pos.mpr hh
    cases r with
    | nil => simp at hlr; omega
    | cons a l => rfl
  rw [hfilter]
  have hrows : ∀ r ∈ rest, (⟨dictReaderRow header r⟩ : Event)
      = ⟨(header.zip r).map fun p => (some p.1, PyVal.str p.2)⟩ := by
    intro r hr
    rw [dictReaderRow_exact hnd (hlen r hr)]
  rw [List.map_congr_left hrows]

theorem saveRows_wellFormed {header : List String} {rest : List (List String)}
    (hnd : header.Nodup) (hlen : ∀ r ∈ rest, r.length = header.length)
    (sc : Option Sidecar) :
    saveRows
      { columns := header.map fun k => ⟨k, sidecarMeta sc k⟩
        rows := rest.map fun r => ⟨(header.zip r).map fun p => (some p.1, PyVal.str p.2)⟩ }
      = .ok (header :: rest) := by
  unfold saveRows
  have hnames : column_names
      { columns := header.map fun k => (⟨k, sidecarMeta sc k⟩ : EventColumn)
        rows := rest.map fun r => ⟨(header.zip r).map fun p => (some p.1, PyVal.str p.2)⟩ }
      = header := by
    unfold column_names
    rw [List.map_map]
    exact List.map_id'' (fun _ => rfl) header
  rw [hnames, mapMExcept_map]
  have hok : mapMExcept
      (fun r : List String =>
        dictWriterRow header
          (Event.data ⟨(header.zip r).map fun p => (some p.1, PyVal.str p.2)⟩))
      rest = .ok (rest.map id) := by
    apply mapMExcept_ok
    intro r hr
    exact dictWriterRow_zip hnd (hlen r hr)
  rw [hok]
  simp

theorem saveSidecar_wellFormed {header : List String} {rest : List (List String)}
    (hnd : header.Nodup) (sc : Option Sidecar) :
    saveSidecar
      { columns := header.map fun k => ⟨k, sidecarMeta sc k⟩
        rows := rest.map fun r => ⟨(header.zip r).map fun p => (some p.1, PyVal.str p.2)⟩ }
      = header.map fun k => (k, sidecarMeta sc k) := by
  unfold saveSidecar column_descriptions
  rw [List.map_map]
  have heq : ((fun c : EventColumn => (c.name, c.data)) ∘ fun k => (⟨k, sidecarMeta sc k⟩ : EventColumn))
      = fun k => (k, sidecarMeta sc k) := rfl
  rw [heq]
  apply pyDictOf_nodup
  rw [List.map_map]
  have hid : List.map (Prod.fst ∘ fun k => (k, sidecarMeta sc k)) header = header :=
    List.map_id'' (fun _ => rfl) header
  rw [hid]
  exact hnd

theorem sidecarMeta_saved {header : List String} (sc : Option Sidecar)
    {k : String} (hk : k ∈ header) :
    sidecarMeta (some (header.map fun x => (x, sidecarMeta sc x))) k = sidecarMeta sc k := by
  have hl := pyLookup_map_self (fun x => sidecarMeta sc x) header k hk
  show (match pyLookup (header.map fun x => (x, sidecarMeta sc x)) k with
        | some m => m
        | none => ([] : Meta)) = sidecarMeta sc k
  rw [hl]

/-! ## Lemmas: the argsort comparison is a total preorder -/

theorem natCmp_swap (a b : Nat) : (natCmp a b).swap = natCmp b a := by
  unfold natCmp
  split_ifs <;> first | rfl | omega

theorem natCmp_lt_iff {a b : Nat} : natCmp a b = .lt ↔ a < b := by
  unfold natCmp
  split_ifs with h1 h2
  · simp [h1]
  · constructor
    · intro h; cases h
    · intro h; omega
  · constructor
    · intro h; cases h
    · intro h; omega

theorem natCmp_lt_trans {a b c : Nat} :
    natCmp a b = .lt → natCmp b c = .lt → natCmp a c = .lt := by
  intro h1 h2
  rw [natCmp_lt_iff] at h1 h2 ⊢
  omega

theorem natCmp_eq {a b : Nat} (h : natCmp a b = .eq) : a = b := by
  unfold natCmp at h
  split_ifs at h <;> first | omega | cases h

theorem intCmp_swap (a b : Int) : (intCmp a b).swap = intCmp b a := by
  unfold intCmp
  split_ifs <;> first | rfl | omega

theorem intCmp_lt_iff {a b : Int} : intCmp a b = .lt ↔ a < b := by
  unfold intCmp
  split_ifs with h1 h2
  · simp [h1]
  · constructor
    · intro h; cases h
    · intro h; omega
  · constructor
    · intro h; cases h
    · intro h; omega

theorem intCmp_lt_trans {a b c : Int} :
    intCmp a b = .lt → intCmp b c = .lt → intCmp a c = .lt := by
  intro h1 h2
  rw [intCmp_lt_iff] at h1 h2 ⊢
  omega

theorem intCmp_eq {a b : Int} (h : intCmp a b = .eq) : a = b := by
  unfold intCmp at h
  split_ifs at h <;> first | omega | cases h

theorem charCmp_swap (a b : Char) : (charCmp a b).swap = charCmp b a :=
  natCmp_swap a.toNat b.toNat

theorem charCmp_lt_trans {a b c : Char} :
    charCmp a b = .lt → charCmp b c = .lt → charCmp a c = .lt :=
  natCmp_lt_trans

theorem charCmp_eq_left {a b : Char} (h : charCmp a b = .eq) (c : Char) :
    charCmp a c = charCmp b c := by
  unfold charCmp
  rw [natCmp_eq h]

theorem charCmp_eq_right {a b : Char} (h : charCmp a b = .eq) (c : Char) :
    charCmp c a = charCmp c b := by
  rw [← charCmp_swap a c, ← charCmp_swap b c, charCmp_eq_left h c]

theorem lexCmp_cons_cons (a b : Char) (as bs : List Char) :
    lexCmp (a :: as) (b :: bs)
      = match charCmp a b with
        | .eq => lexCmp as bs
        | o => o := rfl

theorem lexCmp_swap : ∀ as bs : List Char, (lexCmp as bs).swap = lexCmp bs as := by
  intro as
  induction as with
  | nil => intro bs; cases bs <;> rfl
  | cons a as ih =>
    intro bs
    cases bs with
    | nil => rfl
    | cons b bs =>
      have hba : charCmp b a = (charCmp a b).swap := (charCmp_swap a b).symm
      cases hab : charCmp a b <;>
        simp only [lexCmp_cons_cons, hab, hba, Ordering.swap] <;> try rfl
      exact ih bs

theorem lexCmp_lt_trans : ∀ as bs cs : List Char,
    lexCmp as bs = .lt → lexCmp bs cs = .lt → lexCmp as cs = .lt := by
  intro as
  induction as with
  | nil =>
    intro bs cs h1 h2
    cases bs with
    | nil => exact h2
    | cons b bs =>
      cases cs with
      | nil => cases h2
      | cons c cs => rfl
  | cons a as ih =>
    intro bs cs h1 h2
    cases bs with
    | nil => cases h1
    | cons b bs =>
      cases cs with
      | nil => cases h2
      | cons c cs =>
        rw [lexCmp_cons_cons] at h1 h2 ⊢
        cases hab : charCmp a b <;> rw [hab] at h1
        · cases hbc : charCmp b c <;> rw [hbc] at h2
          · rw [charCmp_lt_trans hab hbc]
          · rw [charCmp_eq_right hbc a] at hab
            rw [hab]
          · cases h2
        · cases hbc : charCmp b c <;> rw [hbc] at h2
          · rw [charCmp_eq_left hab c, hbc]
          · rw [charCmp_eq_left hab c, hbc]
            exact ih bs cs h1 h2
          · cases h2
        · cases h1

theorem lexCmp_eq_left : ∀ as bs : List Char, lexCmp as bs = .eq →
    ∀ cs, lexCmp as cs = lexCmp bs cs := by
  intro as
  induction as with
  | nil =>
    intro bs h cs
    cases bs with
    | nil => rfl
    | cons b bs => cases h
  | cons a as ih =>
    intro bs h cs
    cases bs with
    | nil => cases h
    | cons b bs =>
      rw [lexCmp_cons_cons] at h
      cases hab : charCmp a b <;> rw [hab] at h
      · cases h
      · cases cs with
        | nil => rfl
        | cons c cs =>
          rw [lexCmp_cons_cons, lexCmp_cons_cons, charCmp_eq_left hab c]
          cases hbc : charCmp b c <;> try rfl
          exact ih bs h cs
      · cases h

theorem lexCmp_eq_right {bs cs : List Char} (h : lexCmp bs cs = .eq) (as : List Char) :
    lexCmp as bs = lexCmp as cs := by
  rw [← lexCmp_swap bs as, ← lexCmp_swap cs as, lexCmp_eq_left bs cs h as]

/-! ## Lemmas: the pair comparison used by the modelled argsort -/

theorem tripleCmp_swap (x y : Nat × Int × List Char) :
    (tripleCmp x y).swap = tripleCmp y x := by
  unfold tripleCmp
  have h1 : natCmp y.1 x.1 = (natCmp x.1 y.1).swap := (natCmp_swap x.1 y.1).symm
  have h2 : intCmp y.2.1 x.2.1 = (intCmp x.2.1 y.2.1).swap := (intCmp_swap x.2.1 y.2.1).symm
  cases hn : natCmp x.1 y.1 <;> simp only [hn, h1, Ordering.swap] <;> try rfl
  cases hi : intCmp x.2.1 y.2.1 <;> simp only [hi, h2, Ordering.swap] <;> try rfl
  exact lexCmp_swap x.2.2 y.2.2

theorem tripleCmp_lt_trans {x y z : Nat × Int × List Char} :
    tripleCmp x y = .lt → tripleCmp y z = .lt → tripleCmp x z = .lt := by
  unfold tripleCmp
  intro h1 h2
  cases hn1 : natCmp x.1 y.1 <;> rw [hn1] at h1
  case lt =>
    cases hn2 : natCmp y.1 z.1 <;> rw [hn2] at h2
    case lt => rw [natCmp_lt_trans hn1 hn2]
    case eq =>
      have hyz : y.1 = z.1 := natCmp_eq hn2
      rw [← hyz, hn1]
    case gt => cases h2
  case eq =>
    have hxy : x.1 = y.1 := natCmp_eq hn1
    cases hn2 : natCmp y.1 z.1 <;> rw [hn2] at h2
    case lt => rw [hxy, hn2]
    case eq =>
      rw [hxy, hn2]
      cases hi1 : intCmp x.2.1 y.2.1 <;> rw [hi1] at h1
      case lt =>
        cases hi2 : intCmp y.2.1 z.2.1 <;> rw [hi2] at h2
        case lt => rw [intCmp_lt_trans hi1 hi2]
        case eq =>
          have hyz2 : y.2.1 = z.2.1 := intCmp_eq hi2
          rw [← hyz2, hi1]
        case gt => cases h2
      case eq =>
        have hxy2 : x.2.1 = y.2.1 := intCmp_eq hi1
        cases hi2 : intCmp y.2.1 z.2.1 <;> rw [hi2] at h2
        case lt => rw [hxy2, hi2]
        case eq =>
          rw [hxy2, hi2]
          exact lexCmp_lt_trans _ _ _ h1 h2
        case gt => cases h2
      case gt => cases h1
    case gt => cases h2
  case gt => cases h1

theorem tripleCmp_eq_left {x y : Nat × Int × List Char} (h : tripleCmp x y = .eq)
    (z : Nat × Int × List Char) : tripleCmp x z = tripleCmp y z := by
  unfold tripleCmp at h ⊢
  cases hn : natCmp x.1 y.1 <;> rw [hn] at h
  case lt => cases h
  case gt => cases h
  case eq =>
    rw [natCmp_eq hn]
    cases hi : intCmp x.2.1 y.2.1 <;> rw [hi] at h
    case lt => cases h
    case gt => cases h
    case eq =>
      rw [intCmp_eq hi]
      cases hnz : natCmp y.1 z.1 <;> try rfl
      cases hiz : intCmp y.2.1 z.2.1 <;> try rfl
      rw [lexCmp_eq_left x.2.2 y.2.2 h z.2.2]

theorem valCmp_swap (a b : PyVal) : (valCmp a b).swap = valCmp b a :=
  tripleCmp_swap (valKey a) (valKey b)

theorem valCmp_lt_trans {a b c : PyVal} :
    valCmp a b = .lt → valCmp b c = .lt → valCmp a c = .lt :=
  tripleCmp_lt_trans

theorem valCmp_eq_left {a b : PyVal} (h : valCmp a b = .eq) (c : PyVal) :
    valCmp a c = valCmp b c :=
  tripleCmp_eq_left h (valKey c)

theorem valCmp_eq_right {b c : PyVal} (h : valCmp b c = .eq) (a : PyVal) :
    valCmp a b = valCmp a c := by
  rw [← valCmp_swap b a, ← valCmp_swap c a, valCmp_eq_left h a]

theorem pairR_trans : ∀ p q r : Nat × PyVal, pairR p q → pairR q r → pairR p r := by
  intro p q r h1 h2
  unfold pairR at *
  cases hpq : valCmp p.2 q.2 <;> rw [hpq] at h1
  case lt =>
    cases hqr : valCmp q.2 r.2 <;> rw [hqr] at h2
    case lt => rw [valCmp_lt_trans hpq hqr]
    case eq => rw [← valCmp_eq_right hqr p.2, hpq]
    case gt => cases h2
  case eq =>
    cases hqr : valCmp q.2 r.2 <;> rw [hqr] at h2
    case lt => rw [valCmp_eq_left hpq r.2, hqr]
    case eq =>
      rw [valCmp_eq_left hpq r.2, hqr]
      simp only [decide_eq_true_eq] at h1 h2 ⊢
      omega
    case gt => cases h2
  case gt => cases h1

theorem pairR_total : ∀ p q : Nat × PyVal, pairR p q ∨ pairR q p := by
  intro p q
  unfold pairR
  cases h : valCmp p.2 q.2
  case lt => left; rfl
  case eq =>
    have hqp : valCmp q.2 p.2 = .eq := by
      rw [← valCmp_swap p.2 q.2, h]; rfl
    rcases Nat.le_total p.1 q.1 with hle | hle
    · left; simpa using hle
    · right; rw [hqp]; simpa using hle
  case gt =>
    have hqp : valCmp q.2 p.2 = .lt := by
      rw [← valCmp_swap p.2 q.2, h]; rfl
    right; rw [hqp]

instance : IsTrans (Nat × PyVal) pairR := ⟨pairR_trans⟩

instance : IsTotal (Nat × PyVal) pairR := ⟨pairR_total⟩

/-! ## Lemmas: the modelled argsort -/

theorem sortIdx_perm (xs : List PyVal) : (sortIdx xs).Perm (List.range xs.length) := by
  unfold sortIdx
  have h1 := List.perm_insertionSort pairR xs.enum
  have h2 := h1.map Prod.fst
  rwa [List.enum_map_fst] at h2

theorem mem_insertionSort_enum {xs : List PyVal} {p : Nat × PyVal}
    (hp : p ∈ List.insertionSort pairR xs.enum) : p.2 = xs.getD p.1 PyVal.vnone := by
  have hmem : p ∈ xs.enum := ((List.perm_insertionSort pairR xs.enum).mem_iff).mp hp
  have hg := List.mem_enum_iff_getElem?.mp hmem
  rw [List.getD_eq_getElem?_getD, hg]
  rfl

theorem sortIdx_pairwise (xs : List PyVal) :
    (sortIdx xs).Pairwise
      (fun i j => pairR (i, xs.getD i PyVal.vnone) (j, xs.getD j PyVal.vnone)) := by
  unfold sortIdx
  rw [List.pairwise_map]
  have hsorted : (List.insertionSort pairR xs.enum).Pairwise pairR :=
    List.sorted_insertionSort pairR xs.enum
  refine hsorted.imp_of_mem ?_
  intro a b ha hb hr
  have ha2 := mem_insertionSort_enum ha
  have hb2 := mem_insertionSort_enum hb
  rw [← ha2, ← hb2]
  exact hr

theorem map_getD_range {α : Type} (l : List α) (d : α) :
    (List.range l.length).map (fun i => l.getD i d) = l := by
  apply List.ext_getElem
  · simp
  · intro i h1 h2
    simp only [List.getElem_map, List.getElem_range]
    rw [List.getD_eq_getElem l d h2]

/-! ## Lemmas: the sidecar search walk -/

theorem searchStep_ok_ok (task : String) (acc : Option Sidecar) (files : DirListing) :
    searchStep task (.ok acc) (.ok files) = .ok (searchPureStep task acc files) := by
  show (match scanDir task files with
        | some s => (Except.ok (some s) : Except PyErr (Option Sidecar))
        | none => .ok acc)
      = .ok (match scanDir task files with
        | some s => some s
        | none => acc)
  cases scanDir task files <;> rfl

theorem foldl_searchStep_ok (task : String) :
    ∀ (dirs : List DirListing) (acc : Option Sidecar),
      (dirs.map Except.ok).foldl (searchStep task) (.ok acc)
        = .ok (dirs.foldl (searchPureStep task) acc) := by
  intro dirs
  induction dirs with
  | nil => intro acc; rfl
  | cons d dirs ih =>
    intro acc
    simp only [List.map_cons, List.foldl_cons, searchStep_ok_ok]
    exact ih (searchPureStep task acc d)

theorem searchPure_foldl_farthest (task : String) :
    ∀ (dirs : List DirListing) (acc : Option Sidecar),
      dirs.foldl (searchPureStep task) acc
        = match dirs.reverse.findSome? (scanDir task) with
          | some s => some s
          | none => acc := by
  intro dirs
  induction dirs with
  | nil => intro acc; rfl
  | cons d dirs ih =>
    intro acc
    rw [List.foldl_cons, ih (searchPureStep task acc d)]
    rw [List.reverse_cons, List.findSome?_append]
    have hone : List.findSome? (scanDir task) [d] = scanDir task d := by
      rw [List.findSome?_cons]
      cases scanDir task d <;> rfl
    rw [hone]
    cases hfs : dirs.reverse.findSome? (scanDir task)
    · unfold searchPureStep
      cases hd : scanDir task d <;> rfl
    · rfl

theorem searchPure_farthest (task : String) (dirs : List DirListing) :
    searchPure task dirs
      = match dirs.reverse.findSome? (scanDir task) with
        | some s => some s
        | none => none :=
  searchPure_foldl_farthest task dirs none

/-! ## Lemmas: record keys and the column-superset invariant -/

theorem foldl_insert_keys_subset {K V B : Type} [DecidableEq K] (f : B → K) (g : B → V) :
    ∀ (bs : List B) (d : List (K × V)) (x : K),
      x ∈ ((bs.foldl (fun d b => pyDictInsert d (f b) (g b)) d).map Prod.fst) →
      x ∈ d.map Prod.fst ∨ ∃ b ∈ bs, x = f b := by
  intro bs
  induction bs with
  | nil => intro d x hx; exact Or.inl (by simpa using hx)
  | cons b bs ih =>
    intro d x hx
    rcases ih (pyDictInsert d (f b) (g b)) x (by simpa using hx) with h1 | h1
    · rcases map_fst_pyDictInsert_subset d (f b) (g b) x h1 with h2 | h2
      · exact Or.inl h2
      · exact Or.inr ⟨b, by simp, h2⟩
    · rcases h1 with ⟨b', hb', hx'⟩
      exact Or.inr ⟨b', by simp [hb'], hx'⟩

theorem dictReaderRow_keys {fns row : List String} (hshort : row.length ≤ fns.length)
    {x : PyKey} (hx : x ∈ (dictReaderRow fns row).map Prod.fst) :
    ∃ k ∈ fns, x = some k := by
  unfold dictReaderRow at hx
  have hnlt : ¬ fns.length < row.length := by omega
  rw [if_neg hnlt] at hx
  rcases foldl_insert_keys_subset (fun k : String => (some k : PyKey))
      (fun _ => PyVal.vnone) (fns.drop row.length) _ x hx with h | h
  · have hzip := map_fst_pyDictOf_subset _ x h
    rw [List.map_map] at hzip
    rcases List.mem_map.mp hzip with ⟨q, hq, hqx⟩
    have hq1 : q.1 ∈ fns := (List.of_mem_zip hq).1
    exact ⟨q.1, hq1, hqx.symm⟩
  · rcases h with ⟨k, hk, hkx⟩
    exact ⟨k, List.mem_of_mem_drop hk, hkx⟩

theorem load_tsv_superset (header : List String) (rest : List (List String))
    (sc : Option Sidecar) (hshort : ∀ r ∈ rest, r.length ≤ header.length)
    (t : Events) (hload : load_tsv (header :: rest) sc = .ok t) : keySubset t := by
  have hred : load_tsv (header :: rest) sc = .ok
      { columns := tsvColumns sc header
        rows := (rest.filter fun r => !r.isEmpty).map fun r => ⟨dictReaderRow header r⟩ } := rfl
  rw [hred] at hload
  cases hload
  intro e he k hk
  rcases List.mem_map.mp he with ⟨r, hr, hre⟩
  have hr' : r ∈ rest := List.mem_of_mem_filter hr
  have hkeys : k ∈ (dictReaderRow header r).map Prod.fst := by
    rw [← hre] at hk
    exact hk
  rcases dictReaderRow_keys (hshort r hr') hkeys with ⟨kk, hkk, hkx⟩
  have hname : kk ∈ (tsvColumns sc header).map EventColumn.name := by
    unfold tsvColumns
    exact names_mem_discoverColumns _ (fun _ => rfl) header [] kk (Or.inl hkk)
  rcases List.mem_map.mp hname with ⟨c, hc, hcn⟩
  exact ⟨c, hc, by rw [hkx, hcn]⟩

theorem stimColumnNames_length (ncol : Nat) (dl : Option (List String)) :
    (stimColumnNames ncol dl).length = ncol + 1 := by
  unfold stimColumnNames
  cases dl <;>
    · simp only [List.length_append, List.length_cons, List.length_nil]
      split_ifs with h <;> simp [List.length_take] at h ⊢ <;> omega

theorem trial_type_mem_stimColumnNames (ncol : Nat) (dl : Option (List String)) :
    "trial_type" ∈ stimColumnNames ncol dl := by
  unfold stimColumnNames
  cases dl <;> exact List.mem_append_right _ (by simp)

theorem stimRecord_keys {names : List String} {ncol : Nat} {row : List Int}
    {sname : String} (hlen : ncol < names.length) (htt : "trial_type" ∈ names)
    {x : PyKey} (hx : x ∈ (stimRecord names ncol row sname).data.map Prod.fst) :
    ∃ k ∈ names, x = some k := by
  unfold stimRecord at hx
  rcases map_fst_pyDictInsert_subset _ _ _ x hx with h | h
  · rcases foldl_insert_keys_subset (fun j : Nat => (some (names.getD j "") : PyKey))
        (fun j => PyVal.num (row.getD j 0)) (List.range ncol) [] x h with h1 | h1
    · simp at h1
    · rcases h1 with ⟨j, hj, hx1⟩
      have hjlt : j < names.length := lt_trans (List.mem_range.mp hj) hlen
      refine ⟨names.getD j "", ?_, hx1⟩
      rw [List.getD_eq_getElem names "" hjlt]
      exact List.getElem_mem hjlt
  · exact ⟨"trial_type", htt, h⟩

theorem loadSnirfStim_superset (sc : Option Sidecar) (t : Events) (stim : Stim)
    (h : keySubset t) : keySubset (loadSnirfStim sc t stim) := by
  intro e he k hk
  unfold loadSnirfStim at he ⊢
  rcases List.mem_append.mp he with h1 | h1
  · rcases h e h1 k hk with ⟨c, hc, hck⟩
    exact ⟨c, mem_discoverColumns_of_mem _ _ _ c hc, hck⟩
  · rcases List.mem_map.mp h1 with ⟨row, _, hre⟩
    have hkeys : k ∈ (stimRecord (stimColumnNames stim.ncol stim.dataLabels)
        stim.ncol row stim.name).data.map Prod.fst := by
      rw [← hre] at hk
      exact hk
    have hlen : stim.ncol < (stimColumnNames stim.ncol stim.dataLabels).length := by
      rw [stimColumnNames_length]
      omega
    rcases stimRecord_keys hlen
        (trial_type_mem_stimColumnNames stim.ncol stim.dataLabels) hkeys with ⟨kk, hkk, hkx⟩
    have hname : kk ∈ (addStimColumns sc t.columns
        (stimColumnNames stim.ncol stim.dataLabels)).map EventColumn.name := by
      unfold addStimColumns
      exact names_mem_discoverColumns _ (fun _ => rfl) _ t.columns kk (Or.inl hkk)
    rcases List.mem_map.mp hname with ⟨c, hc, hcn⟩
    exact ⟨c, hc, by rw [hkx, hcn]⟩

theorem load_snirf_superset (sc : Option Sidecar) (stims : List Stim) :
    keySubset (load_snirf sc stims) := by
  unfold load_snirf
  have haux : ∀ (ss : List Stim) (t : Events), keySubset t →
      keySubset (ss.foldl (loadSnirfStim sc) t) := by
    intro ss
    induction ss with
    | nil => intro t h; exact h
    | cons s ss ih =>
      intro t h
      exact ih (loadSnirfStim sc t s) (loadSnirfStim_superset sc t s h)
  apply haux
  intro e he
  cases he

/-! ## Lemmas: sidecar precedence in the binary adapter -/

theorem load_snirf_names_nodup (sc : Option Sidecar) (stims : List Stim) :
    ((load_snirf sc stims).columns.map EventColumn.name).Nodup := by
  unfold load_snirf
  have haux : ∀ (ss : List Stim) (t : Events), (t.columns.map EventColumn.name).Nodup →
      (((ss.foldl (loadSnirfStim sc) t).columns).map EventColumn.name).Nodup := by
    intro ss
    induction ss with
    | nil => intro t h; exact h
    | cons s ss ih =>
      intro t h
      refine ih (loadSnirfStim sc t s) ?_
      unfold loadSnirfStim addStimColumns
      exact discoverColumns_nodup_names _ (fun _ => rfl) _ t.columns h
  apply haux
  simp

theorem load_snirf_data_of_sidecar (sc : Sidecar) (stims : List Stim) :
    ∀ c ∈ (load_snirf (some sc) stims).columns,
      ∀ m, pyLookup sc c.name = some m → c.data = m := by
  unfold load_snirf
  have hmain : ∀ (ss : List Stim) (t : Events),
      (∀ c ∈ t.columns, ∀ m, pyLookup sc c.name = some m → c.data = m) →
      ∀ c ∈ (ss.foldl (loadSnirfStim (some sc)) t).columns,
        ∀ m, pyLookup sc c.name = some m → c.data = m := by
    intro ss
    induction ss with
    | nil => intro t h; exact h
    | cons s ss ih =>
      intro t h
      refine ih (loadSnirfStim (some sc) t s) ?_
      unfold loadSnirfStim addStimColumns
      refine discoverColumns_all _ ?_ _ t.columns h
      intro k m hm
      have hm' : pyLookup sc k = some m := hm
      show (match pyLookup sc k with
            | some m => m
            | none => defaultMeta k) = m
      rw [hm']
  intro c hc
  refine hmain stims ⟨[], []⟩ ?_ c hc
  intro c' hc'
  cases hc'

theorem pyLookup_cols_map {cols : List EventColumn} {key : String} {m : Meta}
    (hall : ∀ c ∈ cols, c.name = key → c.data = m)
    (hmem : ∃ c ∈ cols, c.name = key) :
    pyLookup (cols.map fun c => (c.name, c.data)) key = some m := by
  induction cols with
  | nil => rcases hmem with ⟨c, hc, _⟩; cases hc
  | cons c0 cols ih =>
    rw [List.map_cons, pyLookup_cons]
    by_cases h0 : c0.name = key
    · rw [if_pos h0, hall c0 (by simp) h0]
    · rw [if_neg h0]
      apply ih
      · intro c hc; exact hall c (by simp [hc])
      · rcases hmem with ⟨c, hc, hname⟩
        rcases List.mem_cons.mp hc with h1 | h1
        · exact absurd (h1 ▸ hname) h0
        · exact ⟨c, h1, hname⟩

/-! ## The verified properties -/

/-- C1: for every table loaded from a well-formed tabular file (with or
without a metadata side-file), saving to fresh paths and loading the
saved pair back yields a table with identical column order, identical
column metadata content and an identical record sequence (values
compared as strings); the saved tabular file is in fact identical to the
original, and when no sidecar was involved the reload without a sidecar
also reproduces the table. -/
theorem tsv_save_load_round_trip (file : List (List String)) (sc : Option Sidecar)
    (h : WellFormedTsv file) :
    ∃ t saved, load_tsv file sc = .ok t ∧ saveRows t = .ok saved ∧ saved = file
      ∧ load_tsv saved (some (saveSidecar t)) = .ok t
      ∧ (sc = Option.none → load_tsv saved Option.none = .ok t) := by
  cases file with
  | nil => cases h
  | cons header rest =>
    have h' : header ≠ [] ∧ header.Nodup ∧ ∀ r ∈ rest, r.length = header.length := h
    obtain ⟨hh, hnd, hlen⟩ := h'
    refine ⟨_, header :: rest, load_tsv_wellFormed hh hnd hlen sc, ?_, rfl, ?_, ?_⟩
    · exact saveRows_wellFormed hnd hlen sc
    · rw [saveSidecar_wellFormed hnd sc, load_tsv_wellFormed hh hnd hlen _]
      have hcols : (header.map fun k =>
            (⟨k, sidecarMeta (some (header.map fun x => (x, sidecarMeta sc x))) k⟩ :
              EventColumn))
          = header.map fun k => (⟨k, sidecarMeta sc k⟩ : EventColumn) := by
        apply List.map_congr_left
        intro k hk
        rw [sidecarMeta_saved sc hk]
      rw [hcols]
    · intro hsc
      subst hsc
      exact load_tsv_wellFormed hh hnd hlen Option.none

/-- C1 witness: the round trip evaluated on a concrete two-column,
two-record file. -/
theorem tsv_save_load_round_trip_witness :
    WellFormedTsv [["onset", "x"], ["1", "a"], ["2", "b"]]
      ∧ ∃ t saved,
          load_tsv [["onset", "x"], ["1", "a"], ["2", "b"]] Option.none = .ok t
            ∧ saveRows t = .ok saved
            ∧ saved = [["onset", "x"], ["1", "a"], ["2", "b"]]
            ∧ load_tsv saved (some (saveSidecar t)) = .ok t
            ∧ ((Option.none : Option Sidecar) = Option.none →
                load_tsv saved Option.none = .ok t) :=
  ⟨by decide, tsv_save_load_round_trip [["onset", "x"], ["1", "a"], ["2", "b"]]
    Option.none (by decide)⟩

/-- C2 counterexample: with matching metadata files at the nearest and at
the next ancestor level, the search returns the farther file's contents,
not the nearest: the inner break only leaves the file loop, the level
walk continues and later matches overwrite earlier ones. -/
theorem search_nearest_counterexample :
    sidecarSearch "tap"
        [.ok [("a_task-tap_events.json", [("near", [])])],
         .ok [("b_task-tap_events.json", [("far", [])])], .ok [], .ok []]
      = .ok (some [("far", [])])
      ∧ (some [("far", [])] : Option Sidecar) ≠ some [("near", [])] := by
  constructor
  · decide
  · decide

/-- C2 (amended): the search does not stop at the first success; every
searched level overwrites the stored result on a match, so of the (up
to four) ancestor levels the farthest one holding a match wins — the
result is the first match of the reversed level list; within one
directory the first matching entry wins. -/
theorem sidecarSearch_last_match_wins (task : String) (dirs : List DirListing) :
    sidecarSearch task (dirs.map Except.ok)
      = .ok (((dirs.take 4).reverse).findSome? (scanDir task)) := by
  unfold sidecarSearch
  rw [← List.map_take, foldl_searchStep_ok, searchPure_foldl_farthest]
  cases hfs : ((dirs.take 4).reverse).findSome? (scanDir task) <;> rfl

/-- C3 counterexample: a tabular load of a file whose data row is longer
than the header succeeds and stores the surplus fields under the
`DictReader` rest key (Python `None`), which names no column: the
column-superset invariant fails after this successful load. -/
theorem superset_counterexample :
    load_tsv [["a"], ["1", "2"]] Option.none
        = .ok ⟨[⟨"a", []⟩],
            [⟨[(some "a", PyVal.str "1"), (Option.none, PyVal.vlist ["2"])]⟩]⟩
      ∧ ¬ keySubset ⟨[⟨"a", []⟩],
            [⟨[(some "a", PyVal.str "1"), (Option.none, PyVal.vlist ["2"])]⟩]⟩ := by
  constructor
  · decide
  · decide

/-- C3 (amended): the column-superset invariant holds after every binary
load, and after a tabular load in which no data row is longer than the
header (an overlong row introduces the rest key, which no column
names). -/
theorem load_superset (header : List String) (rest : List (List String))
    (sc sc2 : Option Sidecar) (stims : List Stim) (t : Events)
    (hshort : ∀ r ∈ rest, r.length ≤ header.length)
    (hload : load_tsv (header :: rest) sc = .ok t) :
    keySubset t ∧ keySubset (load_snirf sc2 stims) :=
  ⟨load_tsv_superset header rest sc hshort t hload, load_snirf_superset sc2 stims⟩

/-- C3 witness: the invariant evaluated on a concrete tabular load and a
concrete binary load. -/
theorem load_superset_witness :
    (∀ r ∈ [["1", "2"]], r.length ≤ ["a", "b"].length)
      ∧ keySubset ⟨[⟨"a", []⟩, ⟨"b", []⟩],
          [⟨[(some "a", PyVal.str "1"), (some "b", PyVal.str "2")]⟩]⟩
      ∧ keySubset (load_snirf Option.none [⟨"A", some ["onset"], 1, [[3]]⟩]) :=
  ⟨by decide,
    load_superset ["a", "b"] [["1", "2"]] Option.none Option.none
      [⟨"A", some ["onset"], 1, [[3]]⟩]
      ⟨[⟨"a", []⟩, ⟨"b", []⟩],
        [⟨[(some "a", PyVal.str "1"), (some "b", PyVal.str "2")]⟩]⟩
      (by decide) (by decide)⟩

/-- C4 counterexample: a file whose data row has fewer fields than the
header loads successfully — no error of any kind is raised, so no
FormatError names the offending row. -/
theorem format_error_counterexample :
    (load_tsv [["a", "b"], ["1"]] Option.none).isOk = true := by decide

/-- C4 (amended): loading never fails on inconsistent field counts: any
non-empty file loads successfully, a short row being padded with `None`
values for the missing header names (and an overlong row storing its
surplus under the rest key).  The embedded loader has no failure path
other than the empty file. -/
theorem load_tsv_no_failure :
    (∀ (header : List String) (rest : List (List String)) (sc : Option Sidecar),
        (load_tsv (header :: rest) sc).isOk = true)
      ∧ load_tsv [["a", "b"], ["1"]] Option.none
          = .ok ⟨[⟨"a", []⟩, ⟨"b", []⟩],
              [⟨[(some "a", PyVal.str "1"), (some "b", PyVal.vnone)]⟩]⟩ :=
  ⟨fun _ _ _ => rfl, by decide⟩

/-- C5: on a table whose records lack an onset column, `sort_events`
raises instead of warning: `get_column` raises `KeyError`, and the
`except KeyError(self):` clause names an exception instance rather than
a class, so the matching itself raises `TypeError` out of the method. -/
theorem sort_events_missing_onset_raises :
    sort_events ⟨[⟨"a", []⟩], [⟨[(some "a", PyVal.str "1")]⟩]⟩
      = .error .typeError := by decide

/-- C6 counterexample: a table loaded from tabular text stores onsets as
strings, and the argsort compares them lexicographically: onsets 9 and
10 sort to the order 10, 9, which is not ascending by numeric value. -/
theorem sort_numeric_counterexample :
    sort_events ⟨[⟨"onset", []⟩],
        [⟨[(some "onset", PyVal.str "9")]⟩, ⟨[(some "onset", PyVal.str "10")]⟩]⟩
        = .ok ⟨[⟨"onset", []⟩],
            [⟨[(some "onset", PyVal.str "10")]⟩, ⟨[(some "onset", PyVal.str "9")]⟩]⟩
      ∧ numericOnsetsAscending ⟨[⟨"onset", []⟩],
          [⟨[(some "onset", PyVal.str "10")]⟩, ⟨[(some "onset", PyVal.str "9")]⟩]⟩
        = false := by
  constructor
  · decide
  · decide

/-- C6 (amended): when every record has an onset value, `sort_events`
succeeds and reorders the records into a permutation of the originals
whose onset cells are never descending under the stored values' own
comparison — numeric for numbers, lexicographic by code point for the
strings a tabular load produces — while the column list is unchanged.
The relative order of records with equal onsets is whatever numpy's
unstable default argsort kind produces and is not claimed here; on
small arrays numpy insertion-sorts, so ties do keep their original
order there, as the witness's four-record [2,1,1,3] example shows. -/
theorem sort_events_spec (t : Events) (os : List PyVal)
    (h : get_column t "onset" = .ok os) :
    ∃ t', sort_events t = .ok t'
      ∧ t'.columns = t.columns
      ∧ t'.rows.Perm t.rows
      ∧ List.Pairwise (fun a b => valCmp a b ≠ .gt) (onsetsOf t') := by
  have hlen : os.length = t.rows.length := mapMExcept_length _ t.rows os h
  have h' : mapMExcept
      (fun r : Event =>
        match pyLookup r.data (some "onset") with
        | some v => Except.ok v
        | none => Except.error (PyErr.keyError (some "onset"))) t.rows = .ok os := h
  refine ⟨{ t with rows := (sortIdx os).map fun i => t.rows.getD i default },
    ?_, rfl, ?_, ?_⟩
  · unfold sort_events
    rw [h]
  · have hp : (sortIdx os).Perm (List.range t.rows.length) := by
      have hperm := sortIdx_perm os
      rwa [hlen] at hperm
    have hmap := hp.map (fun i => t.rows.getD i default)
    rwa [map_getD_range t.rows default] at hmap
  · show List.Pairwise (fun a b => valCmp a b ≠ .gt)
      (((sortIdx os).map fun i => t.rows.getD i default).map
        fun e => (pyLookup e.data (some "onset")).getD PyVal.vnone)
    rw [List.map_map, List.pairwise_map]
    have hval : ∀ i ∈ sortIdx os,
        (pyLookup (t.rows.getD i default).data (some "onset")).getD PyVal.vnone
          = os.getD i PyVal.vnone := by
      intro i hi
      have hio : i < os.length :=
        List.mem_range.mp ((sortIdx_perm os).mem_iff.mp hi)
      have hlt : i < t.rows.length := by omega
      have hres := mapMExcept_get _ default PyVal.vnone t.rows os h' i hlt
      cases hpl : pyLookup (t.rows.getD i default).data (some "onset") with
      | none =>
        rw [hpl] at hres
        cases hres
      | some v =>
        rw [hpl] at hres
        simpa using hres
    refine (sortIdx_pairwise os).imp_of_mem ?_
    intro a b ha hb hr
    show valCmp ((pyLookup (t.rows.getD a default).data (some "onset")).getD PyVal.vnone)
      ((pyLookup (t.rows.getD b default).data (some "onset")).getD PyVal.vnone) ≠ .gt
    rw [hval a ha, hval b hb]
    unfold pairR at hr
    intro hgt
    rw [hgt] at hr
    cases hr

/-- C6 witness: the theorem applied to a table with numeric onsets
2, 1, 1, 3 and a marker column, together with the concrete outcome of
the embedded sort there: numpy insertion-sorts an array this small, and
the records end in the order idx1, idx2, idx0, idx3 — ascending with
the tied pair in its original relative order. -/
theorem sort_events_spec_witness :
    get_column ⟨[⟨"onset", []⟩, ⟨"i", []⟩],
        [⟨[(some "onset", PyVal.num 2), (some "i", PyVal.str "0")]⟩,
         ⟨[(some "onset", PyVal.num 1), (some "i", PyVal.str "1")]⟩,
         ⟨[(some "onset", PyVal.num 1), (some "i", PyVal.str "2")]⟩,
         ⟨[(some "onset", PyVal.num 3), (some "i", PyVal.str "3")]⟩]⟩ "onset"
        = .ok [PyVal.num 2, PyVal.num 1, PyVal.num 1, PyVal.num 3]
      ∧ (∃ t', sort_events ⟨[⟨"onset", []⟩, ⟨"i", []⟩],
            [⟨[(some "onset", PyVal.num 2), (some "i", PyVal.str "0")]⟩,
             ⟨[(some "onset", PyVal.num 1), (some "i", PyVal.str "1")]⟩,
             ⟨[(some "onset", PyVal.num 1), (some "i", PyVal.str "2")]⟩,
             ⟨[(some "onset", PyVal.num 3), (some "i", PyVal.str "3")]⟩]⟩ = .ok t'
          ∧ t'.columns = [⟨"onset", []⟩, ⟨"i", []⟩]
          ∧ t'.rows.Perm
              [⟨[(some "onset", PyVal.num 2), (some "i", PyVal.str "0")]⟩,
               ⟨[(some "onset", PyVal.num 1), (some "i", PyVal.str "1")]⟩,
               ⟨[(some "onset", PyVal.num 1), (some "i", PyVal.str "2")]⟩,
               ⟨[(some "onset", PyVal.num 3), (some "i", PyVal.str "3")]⟩]
          ∧ List.Pairwise (fun a b => valCmp a b ≠ .gt) (onsetsOf t'))
      ∧ sort_events ⟨[⟨"onset", []⟩, ⟨"i", []⟩],
            [⟨[(some "onset", PyVal.num 2), (some "i", PyVal.str "0")]⟩,
             ⟨[(some "onset", PyVal.num 1), (some "i", PyVal.str "1")]⟩,
             ⟨[(some "onset", PyVal.num 1), (some "i", PyVal.str "2")]⟩,
             ⟨[(some "onset", PyVal.num 3), (some "i", PyVal.str "3")]⟩]⟩
          = .ok ⟨[⟨"onset", []⟩, ⟨"i", []⟩],
              [⟨[(some "onset", PyVal.num 1), (some "i", PyVal.str "1")]⟩,
               ⟨[(some "onset", PyVal.num 1), (some "i", PyVal.str "2")]⟩,
               ⟨[(some "onset", PyVal.num 2), (some "i", PyVal.str "0")]⟩,
               ⟨[(some "onset", PyVal.num 3), (some "i", PyVal.str "3")]⟩]⟩ := by
  refine ⟨by decide, ?_, by decide⟩
  obtain ⟨t', h1, h2, h3, h4⟩ := sort_events_spec
    ⟨[⟨"onset", []⟩, ⟨"i", []⟩],
      [⟨[(some "onset", PyVal.num 2), (some "i", PyVal.str "0")]⟩,
       ⟨[(some "onset", PyVal.num 1), (some "i", PyVal.str "1")]⟩,
       ⟨[(some "onset", PyVal.num 1), (some "i", PyVal.str "2")]⟩,
       ⟨[(some "onset", PyVal.num 3), (some "i", PyVal.str "3")]⟩]⟩
    [PyVal.num 2, PyVal.num 1, PyVal.num 1, PyVal.num 3] (by decide)
  exact ⟨t', h1, by rw [h2], h3, h4⟩

/-- C7 counterexample: on a table with no records at all, `get_column`
of a name the table does not have returns the empty list successfully
instead of failing. -/
theorem get_column_empty_counterexample :
    get_column ⟨[], []⟩ "nonexistent" = .ok [] := by decide

/-- C7 (amended): `get_column` is a pure read that returns the ordered
list of every record's value for the name when every record has it,
returns the empty list for any name when the table has no records, and
fails with `KeyError` (the missing-column error) exactly when some
record lacks the name — even a name that is a declared column fails if
a record lacks it, and an unknown name succeeds on an empty table. -/
theorem get_column_spec (t : Events) (name : String) :
    ((∀ e ∈ t.rows, (pyLookup e.data (some name)).isSome = true) →
        get_column t name
          = .ok (t.rows.map fun e => (pyLookup e.data (some name)).getD PyVal.vnone))
      ∧ (t.rows = [] → get_column t name = .ok [])
      ∧ ((∃ e ∈ t.rows, pyLookup e.data (some name) = Option.none) →
          ∃ err, get_column t name = .error err) := by
  refine ⟨?_, ?_, ?_⟩
  · intro h
    apply mapMExcept_ok
    intro e he
    rcases Option.isSome_iff_exists.mp (h e he) with ⟨v, hv⟩
    rw [hv]
    rfl
  · intro h
    unfold get_column
    rw [h]
    rfl
  · rintro ⟨e, he, hnone⟩
    refine mapMExcept_isError _ t.rows e he ⟨.keyError (some name), ?_⟩
    rw [hnone]

/-- C7 witness: the success branch of the theorem applied to a concrete
one-record table. -/
theorem get_column_spec_witness :
    (∀ e ∈ (⟨[⟨"a", []⟩], [⟨[(some "a", PyVal.str "1")]⟩]⟩ : Events).rows,
        (pyLookup e.data (some "a")).isSome = true)
      ∧ get_column ⟨[⟨"a", []⟩], [⟨[(some "a", PyVal.str "1")]⟩]⟩ "a"
          = .ok [PyVal.str "1"] :=
  ⟨by decide,
    by
      have h := (get_column_spec ⟨[⟨"a", []⟩], [⟨[(some "a", PyVal.str "1")]⟩]⟩ "a").1
        (by decide)
      rw [h]
      decide⟩

/-- C8 counterexample: a stream of width 5 with two declared labels does
not produce the five-entry column list the claim names — the shortfall
is three synthetic names, not two. -/
theorem stim_labels_counterexample :
    stimColumnNames 5 (some ["label0", "label1"])
      ≠ ["label0", "label1", "column0", "column1", "trial_type"] := by decide

/-- C8 (amended): a stream of width 5 with two declared labels yields
the labels, three synthetic padding names, and the fixed trailing
trial_type column, in that order. -/
theorem stim_labels_padding :
    stimColumnNames 5 (some ["label0", "label1"])
      = ["label0", "label1", "column0", "column1", "column2", "trial_type"] := by decide

/-- C9 counterexample: an unreadable nearest ancestor level aborts the
whole search with the listing error even though a matching file exists
one level higher — the failure is not skipped. -/
theorem search_unreadable_counterexample :
    sidecarSearch "tap"
        [.error .osError, .ok [("b_task-tap_events.json", [("far", [])])]]
      = .error .osError := by decide

/-- C9 (amended): an ancestor level whose listing raises aborts the
search and propagates the error to the caller — matches already found
at nearer levels are lost, nothing is skipped. -/
theorem sidecarSearch_error_aborts (task : String) (pre : List DirListing) (e : PyErr)
    (h : pre.length < 4) :
    sidecarSearch task (pre.map Except.ok ++ [.error e]) = .error e := by
  unfold sidecarSearch
  rw [List.take_of_length_le (by simp; omega), List.foldl_append, foldl_searchStep_ok]
  rfl

/-- C9 witness: the abort evaluated with a match already found at the
nearest level and the failure at the next level. -/
theorem sidecarSearch_error_aborts_witness :
    ([[("a_task-tap_events.json", [("near", [])])]] : List DirListing).length < 4
      ∧ sidecarSearch "tap"
          (([[("a_task-tap_events.json", [("near", [])])]] : List DirListing).map Except.ok
            ++ [.error .osError])
        = .error .osError :=
  ⟨by decide,
    sidecarSearch_error_aborts "tap" [[("a_task-tap_events.json", [("near", [])])]]
      .osError (by decide)⟩

/-- C10: in a binary load with a resolved sidecar, every column whose
key both carries a built-in default annotation set (onset, duration,
value or trial_type) and has a sidecar entry ends with the sidecar's
value as its metadata — the sidecar always wins over the built-in
default. -/
theorem snirf_sidecar_wins (stims : List Stim) (sc : Sidecar) (key : String) (m : Meta)
    (hdef : key = "onset" ∨ key = "duration" ∨ key = "value" ∨ key = "trial_type")
    (hsc : pyLookup sc key = some m)
    (hcol : key ∈ column_names (load_snirf (some sc) stims)) :
    pyLookup (column_descriptions (load_snirf (some sc) stims)) key = some m := by
  unfold column_descriptions
  have hnodup : (((load_snirf (some sc) stims).columns.map
      fun c => (c.name, c.data)).map Prod.fst).Nodup := by
    rw [List.map_map]
    exact load_snirf_names_nodup (some sc) stims
  rw [pyDictOf_nodup hnodup]
  apply pyLookup_cols_map
  · intro c hc hname
    exact load_snirf_data_of_sidecar sc stims c hc m (by rwa [hname])
  · unfold column_names at hcol
    rcases List.mem_map.mp hcol with ⟨c, hc, hn⟩
    exact ⟨c, hc, hn⟩

/-- C10 witness: the precedence evaluated on a one-stream container with
a sidecar entry for the onset column. -/
theorem snirf_sidecar_wins_witness :
    ((("onset" : String) = "onset" ∨ ("onset" : String) = "duration"
        ∨ ("onset" : String) = "value" ∨ ("onset" : String) = "trial_type")
      ∧ pyLookup [("onset", [("Description", "custom")])] "onset"
          = some [("Description", "custom")]
      ∧ "onset" ∈ column_names
          (load_snirf (some [("onset", [("Description", "custom")])])
            [⟨"A", some ["onset"], 1, [[3]]⟩]))
      ∧ pyLookup (column_descriptions
          (load_snirf (some [("onset", [("Description", "custom")])])
            [⟨"A", some ["onset"], 1, [[3]]⟩])) "onset"
        = some [("Description", "custom")] :=
  ⟨⟨Or.inl rfl, by decide, by decide⟩,
    snirf_sidecar_wins [⟨"A", some ["onset"], 1, [[3]]⟩]
      [("onset", [("Description", "custom")])] "onset" [("Description", "custom")]
      (Or.inl rfl) (by decide) (by decide)⟩

end EventsTool
